import Mathlib

/-!
Shallow embedding of src/hashtable.h (a separate-chaining hash table for
byte-sequence keys and values) and proofs about its operations.

Modelling conventions:
* Byte buffers are `List Nat`, each element a byte value (< 256 where it
  matters).  A buffer argument `(key, keysize)` denotes the first `keysize`
  bytes at the pointer, i.e. `key.take keysize`.
* Machine `unsigned int` arithmetic is `Nat` with explicit `% 2 ^ 32`.
* The heap is modelled structurally: a bucket is the list of chain entries
  reachable from its head pointer.  `free` of a node that stays linked (the
  defective relink in `removeFromHashTable`) leaves the chain structurally
  unchanged; a later traversal reads the old bytes (in C this is a
  use-after-free).
* `memcmp(p, q, n)` compares `n` bytes; when a buffer holds fewer than `n`
  bytes the read is out of bounds in C, modelled here as a mismatch.
* Allocation outcomes are an explicit oracle (`List Bool`, in call order,
  missing entries meaning success).  The source never checks the `malloc`
  results inside `insertInHashTable`; a failed `malloc` there is followed by a
  write through the null pointer, modelled as a `crash` result.
-/

namespace Hashtable

/-- Modulus of C `unsigned int` arithmetic. -/
def U32 : Nat := 2 ^ 32

/-- Value that the expression `hash * a + (*key)` in `RSHash` adds for one key
byte: `*key` has type `char`, which is signed on the reference platform, so a
byte `c` with `c % 256 ≥ 128` is sign-extended and contributes `c - 256`
modulo `2 ^ 32`. -/
def charVal (c : Nat) : Nat :=
  if c % 256 < 128 then c % 256 else c % 256 + (U32 - 256)

/-- Loop body of `RSHash` over the key bytes: `hash = hash * a + (*key);
a = a * b;` with `b = 378551`, in wraparound unsigned 32-bit arithmetic. -/
def RSHashLoop : List Nat → Nat → Nat → Nat
  | [], _, hash => hash
  | c :: rest, a, hash => RSHashLoop rest (a * 378551 % U32) ((hash * a + charVal c) % U32)

/-- Function `RSHash` from src/hashtable.h: iterates over the first `keysize` bytes of
`key`, starting from `a = 63689`, `hash = 0`. -/
def RSHash (key : List Nat) (keysize : Nat) : Nat :=
  RSHashLoop (key.take keysize) 63689 0

/-- Modelled from the spec words of §4.1, for comparison with the source
(claim C5): the same recurrence with each input byte treated as unsigned. -/
def RSHashSpecLoop : List Nat → Nat → Nat → Nat
  | [], _, hash => hash
  | c :: rest, a, hash => RSHashSpecLoop rest (a * 378551 % U32) ((hash * a + c % 256) % U32)

/-- Hash of the spec's words: unsigned bytes, same constants. -/
def RSHashSpec (key : List Nat) (keysize : Nat) : Nat :=
  RSHashSpecLoop (key.take keysize) 63689 0

/-- Struct `HashValue` from src/hashtable.h: an owned value buffer and its length
field (the two can disagree after the defective grow path of insert). -/
structure HashValue where
  value : List Nat
  value_size : Nat
deriving DecidableEq

/-- Struct `HashTableEntry` from src/hashtable.h; the `next` pointer is implicit in
the chain list. -/
structure HashTableEntry where
  key : List Nat
  key_size : Nat
  v : HashValue
deriving DecidableEq

/-- Struct `HashTable` from src/hashtable.h; `table` is the bucket array, each bucket
the list of entries in its chain. -/
structure HashTable where
  capacity : Nat
  size : Nat
  table : List (List HashTableEntry)
deriving DecidableEq

/-- Bucket index used by insert, find and remove: `HASH(key, keysize) %
hashtable->capacity`. -/
def hashIndex (ht : HashTable) (key : List Nat) (keysize : Nat) : Nat :=
  RSHash key keysize % ht.capacity

/-- Predicate for `memcmp(p, q, n) == 0`: the first `n` bytes of both buffers agree.  A
buffer shorter than `n` makes the C read out of bounds; modelled as a
mismatch. -/
def memcmpEq (p q : List Nat) (n : Nat) : Bool :=
  p.take n == q.take n

/-- Function `createHashTable` from src/hashtable.h.  The source performs two
allocations (the table object and the bucket array) whose outcomes are
`alloc1`, `alloc2`; there is no check of the `size` argument, and the `int`
argument is converted to `unsigned int` for the `capacity` field.  The bucket
initialisation loop runs `size` times (never for `size ≤ 0`). -/
def createHashTable (size : Int) (alloc1 alloc2 : Bool) : Option HashTable :=
  match alloc1, alloc2 with
  | false, _ => none
  | true, false => none
  | true, true =>
      some { capacity := ((size % (2 ^ 32 : Int))).toNat
             size := 0
             table := List.replicate size.toNat [] }

/-- Fully populated fresh entry as built by both insert paths: `keysize`
bytes of the caller's key and `valuesize` bytes of the caller's value are
copied into owned buffers. -/
def newEntry (key : List Nat) (keysize : Nat) (value : List Nat) (valuesize : Nat) :
    HashTableEntry :=
  { key := key.take keysize
    key_size := keysize
    v := { value := value.take valuesize, value_size := valuesize } }

/-- Key-match branch of `insertInHashTable`: when the new value is larger the
value buffer is grown with `realloc` (old bytes preserved, the fresh tail is
uninitialized and modelled as zero bytes) and `value_size` updated; the new
value bytes are never copied.  When `realloc` fails, or the new value is not
larger, the entry is left untouched. -/
def overwriteEntry (reallocOk : Bool) (valuesize : Nat) (e : HashTableEntry) :
    HashTableEntry :=
  if e.v.value_size < valuesize then
    if reallocOk then
      { e with v := { value := e.v.value ++ List.replicate (valuesize - e.v.value_size) 0
                      value_size := valuesize } }
    else e
  else e

/-- While-loop of `insertInHashTable` over a non-empty chain: `some` of the
updated chain when a key match (`memcmp` over `keysize` bytes, with no
`key_size` comparison) triggers the early `return 0`; `none` when the scan
falls off the end of the chain. -/
def scanChain (reallocOk : Bool) (key : List Nat) (keysize valuesize : Nat) :
    List HashTableEntry → Option (List HashTableEntry)
  | [] => none
  | e :: rest =>
      if memcmpEq e.key key keysize then
        some (overwriteEntry reallocOk valuesize e :: rest)
      else
        match scanChain reallocOk key keysize valuesize rest with
        | some rest2 => some (e :: rest2)
        | none => none

/-- Outcome of one `insertInHashTable` call: the function returns `code` with
the table in state `ht`, or it writes through the null result of an unchecked
failed `malloc` (undefined behavior in the source, modelled as `crash`). -/
inductive InsertResult where
  | ret (code : Int) (ht : HashTable)
  | crash
deriving DecidableEq

/-- Function `insertInHashTable` from src/hashtable.h.  `allocs` lists the outcomes of
the allocation calls the executed path makes, in order: the empty-bucket and
append paths call `malloc` three times (entry node, key buffer, value buffer)
and link the node before populating it; the key-match path calls `realloc`
once.  The early `return 0` of the key-match path skips the
`++ hashtable->size` at the end of the function. -/
def insertInHashTable (allocs : List Bool) (ht : HashTable) (key : List Nat)
    (keysize : Nat) (value : List Nat) (valuesize : Nat) : InsertResult :=
  match ht.table.getD (hashIndex ht key keysize) [] with
  | [] =>
      if allocs.getD 0 true && allocs.getD 1 true && allocs.getD 2 true then
        .ret 0 { ht with
                 table := ht.table.set (hashIndex ht key keysize)
                   [newEntry key keysize value valuesize]
                 size := ht.size + 1 }
      else .crash
  | e :: rest =>
      match scanChain (allocs.getD 0 true) key keysize valuesize (e :: rest) with
      | some chain2 =>
          .ret 0 { ht with table := ht.table.set (hashIndex ht key keysize) chain2 }
      | none =>
          if allocs.getD 0 true && allocs.getD 1 true && allocs.getD 2 true then
            .ret 0 { ht with
                     table := ht.table.set (hashIndex ht key keysize)
                       (e :: rest ++ [newEntry key keysize value valuesize])
                     size := ht.size + 1 }
          else .crash

/-- While-loop of `removeFromHashTable`.  A match requires `key_size ==
keysize` and byte equality.  When the matched entry is the bucket head the
head pointer is rewritten to `entry->next`; otherwise the source assigns
`prev_entry = entry->next` — a write to a local variable, not to
`prev_entry->next` — so the chain is not relinked: the node is freed but stays
linked, structurally leaving the chain unchanged. -/
def removeLoop (key : List Nat) (keysize : Nat) (isHead : Bool) :
    List HashTableEntry → List HashTableEntry
  | [] => []
  | e :: rest =>
      if e.key_size == keysize && memcmpEq e.key key keysize then
        if isHead then rest else e :: rest
      else e :: removeLoop key keysize false rest

/-- Function `removeFromHashTable` from src/hashtable.h.  The function never touches
`hashtable->size`. -/
def removeFromHashTable (ht : HashTable) (key : List Nat) (keysize : Nat) : HashTable :=
  { ht with
    table := ht.table.set (hashIndex ht key keysize)
      (removeLoop key keysize true (ht.table.getD (hashIndex ht key keysize) [])) }

/-- While-loop of `findInHashTable`: first entry with `key_size == keysize`
and matching bytes. -/
def findLoop (key : List Nat) (keysize : Nat) : List HashTableEntry → Option HashValue
  | [] => none
  | e :: rest =>
      if e.key_size == keysize && memcmpEq e.key key keysize then some e.v
      else findLoop key keysize rest

/-- Function `findInHashTable` from src/hashtable.h: read-only scan of the bucket
chain, returning the stored value descriptor of the first match. -/
def findInHashTable (ht : HashTable) (key : List Nat) (keysize : Nat) : Option HashValue :=
  findLoop key keysize (ht.table.getD (hashIndex ht key keysize) [])

/-- One insert call with every allocation succeeding (the empty oracle); such
a call never crashes, so the resulting table is total. -/
def insertOk (ht : HashTable) (key : List Nat) (keysize : Nat)
    (value : List Nat) (valuesize : Nat) : HashTable :=
  match insertInHashTable [] ht key keysize value valuesize with
  | .ret _ ht2 => ht2
  | .crash => ht

/-- One insert call of a sequence: the caller's key/value buffers with their
length arguments. -/
structure InsOp where
  key : List Nat
  keysize : Nat
  value : List Nat
  valuesize : Nat
deriving DecidableEq

/-- Runs a sequence of insert calls (all allocations succeeding). -/
def runInserts (ht : HashTable) : List InsOp → HashTable
  | [] => ht
  | op :: ops => runInserts (insertOk ht op.key op.keysize op.value op.valuesize) ops

/-! ### Hash function: claim C5 -/

/-- A byte below 128 is not sign-extended, so its summand is its unsigned
residue. -/
theorem charVal_of_lt (c : Nat) (h : c < 128) : charVal c = c % 256 := by
  have h2 : c % 256 = c := Nat.mod_eq_of_lt (by omega)
  unfold charVal
  rw [h2, if_pos h]

/-- On byte lists without the high bit set, the source loop and the spec's
unsigned loop coincide for every accumulator state. -/
theorem RSHashLoop_eq_specLoop : ∀ (l : List Nat), (∀ b ∈ l, b < 128) →
    ∀ (a hash : Nat), RSHashLoop l a hash = RSHashSpecLoop l a hash := by
  intro l
  induction l with
  | nil => intro _ a hash; rfl
  | cons c rest ih =>
      intro h a hash
      have hc : c < 128 := h c (List.mem_cons_self c rest)
      have hr : ∀ b ∈ rest, b < 128 := fun b hb => h b (List.mem_cons_of_mem c hb)
      simp only [RSHashLoop, RSHashSpecLoop, charVal_of_lt c hc]
      exact ih hr _ _

/-- C5 (counterexample): the claim says every key byte is treated as
unsigned, but `*key` has type `char`: on the single byte 0x80 the source hash
is `2 ^ 32 - 128` (the byte is sign-extended to −128) while the spec's
unsigned recurrence gives 128. -/
theorem rshash_signed_counterexample :
    RSHash [128] 1 = 4294967168 ∧ RSHashSpec [128] 1 = 128 ∧
      RSHash [128] 1 ≠ RSHashSpec [128] 1 := by decide

/-- C5 (amended): the recurrence, constants and wraparound 32-bit arithmetic
are as claimed, and the bucket index is the hash modulo the capacity
(`hashIndex`), but each byte is read as a signed `char`: a byte `c ≥ 128`
contributes `c - 256` modulo `2 ^ 32`.  Hence the spec's unsigned recurrence
is reproduced exactly on keys all of whose bytes are below 128. -/
theorem rshash_matches_spec_on_ascii (key : List Nat) (keysize : Nat)
    (h : ∀ b ∈ key, b < 128) :
    RSHash key keysize = RSHashSpec key keysize := by
  unfold RSHash RSHashSpec
  exact RSHashLoop_eq_specLoop (key.take keysize)
    (fun b hb => h b (List.take_subset keysize key hb)) 63689 0

/-- Witness for `rshash_matches_spec_on_ascii` on the key bytes of "Hel". -/
theorem rshash_matches_spec_on_ascii_witness :
    RSHash [72, 101, 108] 3 = RSHashSpec [72, 101, 108] 3 :=
  rshash_matches_spec_on_ascii [72, 101, 108] 3 (by decide)

/-! ### Creation: claim C6 -/

/-- C6 (counterexample): `createHashTable` has no `capacity ≤ 0` check.
Requesting capacity 0 with both allocations succeeding returns a table (with
zero buckets and size 0), not a null/failure result. -/
theorem create_zero_capacity_succeeds :
    createHashTable 0 true true = some { capacity := 0, size := 0, table := [] } ∧
      createHashTable 0 true true ≠ none := by decide

/-- C6 (amended): `createHashTable` fails exactly when one of its two
allocations fails — the `capacity ≤ 0` case is not rejected.  On success the
table's `size` is 0, its `capacity` is the argument converted to `unsigned
int`, and its buckets (one per loop iteration, i.e. `max size 0` of them) are
all empty. -/
theorem createHashTable_fails_only_on_alloc (n : Int) (a1 a2 : Bool) (ht : HashTable)
    (h : createHashTable n a1 a2 = some ht) :
    a1 = true ∧ a2 = true ∧ ht.size = 0 ∧
      ht.capacity = ((n % (2 ^ 32 : Int))).toNat ∧
      ht.table = List.replicate n.toNat [] ∧
      createHashTable n false a2 = none ∧ createHashTable n a1 false = none := by
  cases a1 with
  | false => exact absurd h (by simp [createHashTable])
  | true =>
      cases a2 with
      | false => exact absurd h (by simp [createHashTable])
      | true =>
          simp only [createHashTable] at h
          have h2 := Option.some.inj h
          subst h2
          exact ⟨rfl, rfl, rfl, rfl, rfl, rfl, rfl⟩

/-- Witness for `createHashTable_fails_only_on_alloc` at capacity 3. -/
theorem createHashTable_fails_only_on_alloc_witness :
    (true : Bool) = true ∧ (true : Bool) = true ∧
      (HashTable.mk 3 0 [[], [], []]).size = 0 ∧
      (HashTable.mk 3 0 [[], [], []]).capacity = (((3 : Int) % (2 ^ 32 : Int))).toNat ∧
      (HashTable.mk 3 0 [[], [], []]).table = List.replicate (3 : Int).toNat [] ∧
      createHashTable 3 false true = none ∧ createHashTable 3 true false = none :=
  createHashTable_fails_only_on_alloc 3 true true (HashTable.mk 3 0 [[], [], []]) (by decide)

/-! ### Concrete states used to exhibit the defects of remove and insert -/

/-- Entry key `[1] → value [10]`. -/
def E1 : HashTableEntry := ⟨[1], 1, ⟨[10], 1⟩⟩

/-- Entry key `[2] → value [20]`. -/
def E2 : HashTableEntry := ⟨[2], 1, ⟨[20], 1⟩⟩

/-- One-bucket table whose single chain holds `E1` then `E2`. -/
def T1 : HashTable := ⟨1, 2, [[E1, E2]]⟩

/-- One-bucket table holding the single entry key `[5] → value [1, 2]`. -/
def T2a : HashTable := ⟨1, 1, [[⟨[5], 1, ⟨[1, 2], 2⟩⟩]]⟩

/-- State of `T2a` after re-inserting key `[5]` with the 4-byte value
`[7, 8, 9, 10]`: the buffer grew and `value_size` was updated, but the new
bytes were never copied (the old two bytes survive; the grown tail is
uninitialized, modelled as zeros). -/
def T2b : HashTable := ⟨1, 1, [[⟨[5], 1, ⟨[1, 2, 0, 0], 4⟩⟩]]⟩

/-- One-bucket table holding the single entry key `[3, 4] → value [9]`. -/
def T3a : HashTable := ⟨1, 1, [[⟨[3, 4], 2, ⟨[9], 1⟩⟩]]⟩

/-- C1: in a capacity-1 table holding keys `[1]` and `[2]` (one chain),
`removeFromHashTable` of the non-head key `[2]` leaves the table structurally
unchanged — the loop's relink step assigns `entry->next` to the local
`prev_entry` instead of `prev_entry->next`, so the freed node stays linked —
hence `findInHashTable` still returns the removed key's value (in C a
use-after-free read) and `size` stays 2 instead of dropping to 1.  The claim's
`find(key) = absent`, `size` decrement, and chain-integrity statements all
fail here. -/
theorem remove_defect_exposed :
    createHashTable 1 true true = some ⟨1, 0, [[]]⟩ ∧
      insertInHashTable [] ⟨1, 0, [[]]⟩ [1] 1 [10] 1 = .ret 0 ⟨1, 1, [[E1]]⟩ ∧
      insertInHashTable [] ⟨1, 1, [[E1]]⟩ [2] 1 [20] 1 = .ret 0 T1 ∧
      removeFromHashTable T1 [2] 1 = T1 ∧
      findInHashTable (removeFromHashTable T1 [2] 1) [2] 1 = some ⟨[20], 1⟩ ∧
      (removeFromHashTable T1 [2] 1).size = 2 := by decide

/-- C2: re-inserting key `[5]` (stored value `[1, 2]`) with the larger value
`[7, 8, 9, 10]` grows the buffer and sets `value_size = 4` but never copies
the new bytes: `find` then reports a 4-byte value whose first two bytes are
still `[1, 2]`, not the inserted `[7, 8, 9, 10]`.  (`size` is indeed
unchanged — the call returns before the increment.) -/
theorem insert_overwrite_loses_bytes :
    createHashTable 1 true true = some ⟨1, 0, [[]]⟩ ∧
      insertInHashTable [] ⟨1, 0, [[]]⟩ [5] 1 [1, 2] 2 = .ret 0 T2a ∧
      insertInHashTable [] T2a [5] 1 [7, 8, 9, 10] 4 = .ret 0 T2b ∧
      T2b.size = T2a.size ∧
      findInHashTable T2b [5] 1 = some ⟨[1, 2, 0, 0], 4⟩ ∧
      findInHashTable T2b [5] 1 ≠ some ⟨[7, 8, 9, 10], 4⟩ := by decide

/-- C3: round-trip failure that involves no out-of-bounds read and no
allocation defect.  After inserting key `[3, 4]`, inserting key `[3]` (one
byte) is treated as an overwrite — insert's match compares only `keysize`
bytes and never checks `entry->key_size` — so no entry for `[3]` is created;
`findInHashTable`, which does check `key_size`, then returns absent for `[3]`
although it was just "successfully" inserted. -/
theorem insert_find_roundtrip_fails :
    createHashTable 1 true true = some ⟨1, 0, [[]]⟩ ∧
      insertInHashTable [] ⟨1, 0, [[]]⟩ [3, 4] 2 [9] 1 = .ret 0 T3a ∧
      insertInHashTable [] T3a [3] 1 [8] 1 = .ret 0 T3a ∧
      findInHashTable T3a [3] 1 = none := by decide

/-- C4 (counterexample): a successful overwrite insert does not increment
`size` — the key-match branch returns 0 before the `++ hashtable->size` line
is reached.  Here the table is returned entirely unchanged with `size` still
1, where the claim requires 2. -/
theorem insert_overwrite_size_unchanged :
    insertInHashTable [] T2a [5] 1 [3, 4] 2 = .ret 0 T2a ∧ T2a.size = 1 := by decide

/-- C9: allocation failures inside `insertInHashTable` are not surfaced.  On
the key-match grow path a failed `realloc` makes the call return 0 (success)
with the old value silently kept; on the fresh-entry paths the unchecked
`malloc` result is linked into the bucket and immediately dereferenced — a
crash, not an explicit failure result. -/
theorem insert_alloc_failure_not_reported :
    insertInHashTable [false] T2a [5] 1 [7, 8, 9, 10] 4 = .ret 0 T2a ∧
      insertInHashTable [false] ⟨1, 0, [[]]⟩ [5] 1 [1, 2] 2 = .crash := by decide

/-! ### General lemmas about the chain scan and list surgery -/

/-- Setting an index back to the value it already holds (or a no-op index)
leaves the list unchanged. -/
theorem set_getD_self {α : Type} : ∀ (l : List α) (i : Nat) (d : α),
    l.set i (l.getD i d) = l := by
  intro l
  induction l with
  | nil => intro i d; rfl
  | cons a rest ih =>
      intro i d
      cases i with
      | zero => rfl
      | succ j =>
          show a :: rest.set j ((a :: rest).getD (j + 1) d) = a :: rest
          rw [List.getD_cons_succ, ih j d]

/-- A `getD` lookup yields the default or an element of the list. -/
theorem getD_default_or_mem {α : Type} : ∀ (l : List α) (i : Nat) (d : α),
    l.getD i d = d ∨ l.getD i d ∈ l := by
  intro l
  induction l with
  | nil => intro i d; exact Or.inl rfl
  | cons a rest ih =>
      intro i d
      cases i with
      | zero => exact Or.inr (List.mem_cons_self a rest)
      | succ j =>
          rw [List.getD_cons_succ]
          rcases ih j d with h | h
          · exact Or.inl h
          · exact Or.inr (List.mem_cons_of_mem a h)

/-- The insert scan succeeds exactly when some chain entry matches the
insert comparison (memcmp over `keysize` bytes). -/
theorem scanChain_isSome (r : Bool) (key : List Nat) (ks vs : Nat) :
    ∀ c : List HashTableEntry,
      (scanChain r key ks vs c).isSome = c.any (fun e => memcmpEq e.key key ks) := by
  intro c
  induction c with
  | nil => rfl
  | cons e rest ih =>
      cases hm : memcmpEq e.key key ks with
      | true => simp [scanChain, hm]
      | false =>
          rw [List.any_cons, hm, Bool.false_or, ← ih]
          cases hs : scanChain r key ks vs rest with
          | some x => simp [scanChain, hm, hs]
          | none => simp [scanChain, hm, hs]

/-- C4 (amended): a successful insert call increments `size` by one exactly
when no chain entry matches insert's key comparison (a fresh entry is
created); when a match is found the call returns success with `size`
untouched, because the key-match branch returns before `++ hashtable->size`.
And `removeFromHashTable` never changes `size` at all, as the claim's second
half states. -/
theorem insert_size_semantics (allocs : List Bool) (ht : HashTable) (key : List Nat)
    (ks : Nat) (v : List Nat) (vs : Nat) (code : Int) (ht2 : HashTable)
    (h : insertInHashTable allocs ht key ks v vs = .ret code ht2) :
    (ht2.size = if (ht.table.getD (hashIndex ht key ks) []).any
        (fun e => memcmpEq e.key key ks) then ht.size else ht.size + 1) ∧
      (removeFromHashTable ht key ks).size = ht.size := by
  refine ⟨?_, rfl⟩
  rcases hc : ht.table.getD (hashIndex ht key ks) [] with _ | ⟨e, rest⟩
  · simp only [insertInHashTable, hc] at h
    split at h
    · have h2 := (InsertResult.ret.inj h).2
      subst h2
      simp
    · exact absurd h (by simp)
  · simp only [insertInHashTable, hc] at h
    have hsome := scanChain_isSome (allocs.getD 0 true) key ks vs (e :: rest)
    cases hs : scanChain (allocs.getD 0 true) key ks vs (e :: rest) with
    | some c2 =>
        rw [hs] at hsome
        simp only [hs] at h
        have h2 := (InsertResult.ret.inj h).2
        subst h2
        simp only [Option.isSome_some] at hsome
        rw [← hsome]
        simp
    | none =>
        rw [hs] at hsome
        simp only [hs] at h
        simp only [Option.isSome_none] at hsome
        rw [← hsome]
        split at h
        · have h2 := (InsertResult.ret.inj h).2
          subst h2
          simp
        · exact absurd h (by simp)

/-- Witness for `insert_size_semantics`: an overwrite insert into `T2a`. -/
theorem insert_size_semantics_witness :
    (T2a.size = if (T2a.table.getD (hashIndex T2a [5] 1) []).any
        (fun e => memcmpEq e.key [5] 1) then T2a.size else T2a.size + 1) ∧
      (removeFromHashTable T2a [5] 1).size = T2a.size :=
  insert_size_semantics [] T2a [5] 1 [3, 4] 2 0 T2a (by decide)

/-! ### Claim C10: overwrite with a not-larger value is a complete no-op -/

/-- The key-match branch leaves the entry untouched when the new value is not
larger than the stored one. -/
theorem overwriteEntry_of_le (r : Bool) (vs : Nat) (e : HashTableEntry)
    (h : vs ≤ e.v.value_size) : overwriteEntry r vs e = e := by
  unfold overwriteEntry
  rw [if_neg (by omega)]

/-- If the first matching entry of the chain stores a value at least as large
as the new one, the scan returns the chain unchanged. -/
theorem scanChain_first_match_le (r : Bool) (key : List Nat) (ks vs : Nat) :
    ∀ (c : List HashTableEntry) (e : HashTableEntry),
      c.find? (fun e2 => memcmpEq e2.key key ks) = some e →
      vs ≤ e.v.value_size → scanChain r key ks vs c = some c := by
  intro c
  induction c with
  | nil => intro e h _; exact absurd h (by simp)
  | cons e1 rest ih =>
      intro e h hle
      cases hm : memcmpEq e1.key key ks with
      | true =>
          simp only [List.find?, hm] at h
          have he : e1 = e := Option.some.inj h
          simp only [scanChain, hm, if_true]
          rw [overwriteEntry_of_le r vs e1 (he ▸ hle)]
      | false =>
          simp only [List.find?, hm] at h
          simp only [scanChain, hm, Bool.false_eq_true, if_false]
          rw [ih e h hle]

/-- C10: an `insertInHashTable` call whose key matches a chain entry (per
insert's comparison: memcmp over `keysize` bytes against the first matching
entry) with `valuesize` not exceeding that entry's stored `value_size`
returns 0 (success) and leaves the whole table unchanged — value bytes,
`value_size` and `size` included; the new value bytes are never written. -/
theorem insert_smaller_value_noop (allocs : List Bool) (ht : HashTable)
    (key : List Nat) (ks : Nat) (v : List Nat) (vs : Nat) (e : HashTableEntry)
    (hfind : (ht.table.getD (hashIndex ht key ks) []).find?
        (fun e2 => memcmpEq e2.key key ks) = some e)
    (hvs : vs ≤ e.v.value_size) :
    insertInHashTable allocs ht key ks v vs = .ret 0 ht := by
  rcases hc : ht.table.getD (hashIndex ht key ks) [] with _ | ⟨e1, rest⟩
  · rw [hc] at hfind
    exact absurd hfind (by simp)
  · rw [hc] at hfind
    have hscan := scanChain_first_match_le (allocs.getD 0 true) key ks vs
      (e1 :: rest) e hfind hvs
    simp only [insertInHashTable, hc, hscan]
    rw [← hc, set_getD_self]

/-- Witness for `insert_smaller_value_noop`: re-inserting the key `[3]` into
`T3a` (insert's scan matches the stored key `[3, 4]` on its first byte) with
a 1-byte value. -/
theorem insert_smaller_value_noop_witness :
    insertInHashTable [] T3a [3] 1 [8] 1 = .ret 0 T3a :=
  insert_smaller_value_noop [] T3a [3] 1 [8] 1 ⟨[3, 4], 2, ⟨[9], 1⟩⟩ (by decide) (by decide)

/-! ### Claim C7: find matches exactly on key_size plus key bytes -/

/-- On a chain whose stored key buffers have the lengths recorded in
`key_size`, the find loop returns the value of the first entry whose
`key_size` equals the query length and whose key bytes equal the query bytes
exactly; entries differing in `key_size` are rejected even when a byte
prefix coincides, since the loop checks `key_size == keysize` first. -/
theorem findLoop_eq_find? (key : List Nat) (ks : Nat) :
    ∀ c : List HashTableEntry, (∀ e ∈ c, e.key.length = e.key_size) →
      findLoop key ks c =
        (c.find? (fun e => e.key_size == ks && e.key == key.take ks)).map
          (fun e => e.v) := by
  intro c
  induction c with
  | nil => intro _; rfl
  | cons e rest ih =>
      intro h
      have he : e.key.length = e.key_size := h e (List.mem_cons_self e rest)
      have hrest : ∀ e2 ∈ rest, e2.key.length = e2.key_size :=
        fun e2 h2 => h e2 (List.mem_cons_of_mem e h2)
      have hpred : (e.key_size == ks && memcmpEq e.key key ks)
          = (e.key_size == ks && e.key == key.take ks) := by
        cases hk : (e.key_size == ks : Bool) with
        | false => simp
        | true =>
            have hk2 : e.key_size = ks := by simpa using hk
            have htake : e.key.take ks = e.key :=
              List.take_of_length_le (by omega)
            simp only [Bool.true_and, memcmpEq, htake]
      cases hq : (e.key_size == ks && e.key == key.take ks) with
      | true => simp [findLoop, List.find?, hpred, hq]
      | false =>
          simp only [findLoop, List.find?, hpred, hq, Bool.false_eq_true, if_false]
          exact ih hrest

/-- C7: on a table whose stored key buffers are consistent with their
`key_size` fields (true of every table the API builds) and a readable query
buffer, `findInHashTable` returns the value descriptor of the first bucket
entry with `key_size = keysize` and key bytes equal to the query bytes, and
`none` when no such entry exists.  The embedding is pure state passing:
`findInHashTable` returns only the descriptor, never a modified table. -/
theorem find_exact_match (ht : HashTable) (key : List Nat) (ks : Nat)
    (hwf : ∀ c ∈ ht.table, ∀ e ∈ c, e.key.length = e.key_size)
    (_hks : ks ≤ key.length) :
    findInHashTable ht key ks =
      ((ht.table.getD (hashIndex ht key ks) []).find?
        (fun e => e.key_size == ks && e.key == key.take ks)).map (fun e => e.v) := by
  unfold findInHashTable
  apply findLoop_eq_find?
  rcases getD_default_or_mem ht.table (hashIndex ht key ks) [] with h | h
  · rw [h]; intro e he; exact absurd he (List.not_mem_nil e)
  · exact hwf _ h

/-- Witness for `find_exact_match` on `T3a` with the query key `[3]`, whose
single byte coincides with a prefix of the stored key `[3, 4]` but whose
length does not. -/
theorem find_exact_match_witness :
    findInHashTable T3a [3] 1 =
      ((T3a.table.getD (hashIndex T3a [3] 1) []).find?
        (fun e => e.key_size == 1 && e.key == [3].take 1)).map (fun e => e.v) :=
  find_exact_match T3a [3] 1 (by decide) (by decide)

/-! ### Claim C8: no chain ever holds two entries with the same key -/

/-- The key pair (bytes, length field) of an entry. -/
def keyOf (e : HashTableEntry) : List Nat × Nat := (e.key, e.key_size)

/-- No key pair occurs twice in the list. -/
def noDupKeysB : List (List Nat × Nat) → Bool
  | [] => true
  | p :: rest => rest.all (fun q => q != p) && noDupKeysB rest

/-- Claim C8's property: within every bucket chain, no two entries agree on
both key bytes and the key_size field. -/
def tableNoDupB (ht : HashTable) : Bool :=
  ht.table.all (fun c => noDupKeysB (c.map keyOf))

/-- Chain invariant carried through an insert sequence: stored key buffer
lengths match the key_size fields, and key pairs are pairwise distinct. -/
def ChainWF (c : List HashTableEntry) : Prop :=
  (∀ e ∈ c, e.key.length = e.key_size) ∧
    c.Pairwise (fun e1 e2 => ¬ (e1.key_size = e2.key_size ∧ e1.key = e2.key))

/-- Table invariant: every chain is well formed. -/
def TableWF (ht : HashTable) : Prop := ∀ c ∈ ht.table, ChainWF c

/-- Lookup into the empty list gives the default. -/
theorem getD_nil {α : Type} (i : Nat) (d : α) : List.getD [] i d = d := by
  cases i <;> rfl

/-- The key-match update never touches the key fields. -/
theorem overwriteEntry_keyOf (r : Bool) (vs : Nat) (e : HashTableEntry) :
    keyOf (overwriteEntry r vs e) = keyOf e := by
  unfold overwriteEntry
  split
  · split
    · rfl
    · rfl
  · rfl

/-- The insert scan only rewrites value data: the chain's key pairs are
untouched. -/
theorem scanChain_map_keyOf (r : Bool) (key : List Nat) (ks vs : Nat) :
    ∀ c c2, scanChain r key ks vs c = some c2 → c2.map keyOf = c.map keyOf := by
  intro c
  induction c with
  | nil => intro c2 h; exact absurd h (by simp [scanChain])
  | cons e rest ih =>
      intro c2 h
      cases hm : memcmpEq e.key key ks with
      | true =>
          simp only [scanChain, hm, if_true] at h
          have h2 := Option.some.inj h
          subst h2
          simp [overwriteEntry_keyOf]
      | false =>
          simp only [scanChain, hm, Bool.false_eq_true, if_false] at h
          cases hs : scanChain r key ks vs rest with
          | some rest2 =>
              simp only [hs] at h
              have h2 := Option.some.inj h
              subst h2
              simp only [List.map_cons, ih rest2 hs]
          | none =>
              simp only [hs] at h
              exact absurd h (by simp)

/-- A chain with the same key pairs as a well-formed chain is well formed. -/
theorem chainWF_of_map_keyOf_eq (c c2 : List HashTableEntry)
    (h : c2.map keyOf = c.map keyOf) (hwf : ChainWF c) : ChainWF c2 := by
  constructor
  · intro e he
    have hm : keyOf e ∈ c2.map keyOf := List.mem_map_of_mem keyOf he
    rw [h] at hm
    rcases List.mem_map.mp hm with ⟨e1, he1, hke⟩
    have h1 : e1.key = e.key := congrArg Prod.fst hke
    have h2 : e1.key_size = e.key_size := congrArg Prod.snd hke
    rw [← h1, ← h2]
    exact hwf.1 e1 he1
  · have hp : (c.map keyOf).Pairwise (fun p q => ¬ (p.2 = q.2 ∧ p.1 = q.1)) := by
      rw [List.pairwise_map]
      exact hwf.2
    rw [← h, List.pairwise_map] at hp
    exact hp

/-- When the scan falls off the end, no chain entry matched the probe. -/
theorem scanChain_none_no_match (r : Bool) (key : List Nat) (ks vs : Nat)
    (c : List HashTableEntry) (h : scanChain r key ks vs c = none) :
    ∀ e ∈ c, memcmpEq e.key key ks = false := by
  have hi := scanChain_isSome r key ks vs c
  rw [h] at hi
  simp only [Option.isSome_none] at hi
  intro e he
  cases hm : memcmpEq e.key key ks with
  | false => rfl
  | true =>
      have hany : c.any (fun e2 => memcmpEq e2.key key ks) = true :=
        List.any_eq_true.mpr ⟨e, he, hm⟩
      rw [← hi] at hany
      exact absurd hany (by simp)

/-- One insert call with all allocations succeeding preserves the table
invariant, given that the probe key buffer holds `ks` readable bytes. -/
theorem insertOk_wf (ht : HashTable) (key : List Nat) (ks : Nat) (v : List Nat)
    (vs : Nat) (hks : ks ≤ key.length) (hwf : TableWF ht) :
    TableWF (insertOk ht key ks v vs) := by
  rcases hc : ht.table.getD (hashIndex ht key ks) [] with _ | ⟨e1, rest⟩ <;>
    have hc2 : (ht.table[hashIndex ht key ks]?).getD [] =
        ht.table.getD (hashIndex ht key ks) [] := (List.getD_eq_getElem?_getD _ _ _).symm
  · rw [hc] at hc2
    have hrun : insertOk ht key ks v vs =
        { ht with
          table := ht.table.set (hashIndex ht key ks) [newEntry key ks v vs]
          size := ht.size + 1 } := by
      simp [insertOk, insertInHashTable, hc2, getD_nil]
    rw [hrun]
    intro c hcmem
    rcases List.mem_or_eq_of_mem_set hcmem with h | h
    · exact hwf c h
    · subst h
      constructor
      · intro e he
        have he2 := List.mem_singleton.mp he
        subst he2
        show (key.take ks).length = ks
        rw [List.length_take]
        exact Nat.min_eq_left hks
      · simp
  · rw [hc] at hc2
    have hchain : ChainWF (e1 :: rest) := by
      rcases getD_default_or_mem ht.table (hashIndex ht key ks) [] with h | h
      · rw [hc] at h; cases h
      · rw [hc] at h; exact hwf _ h
    cases hs : scanChain true key ks vs (e1 :: rest) with
    | some c2 =>
        have hrun : insertOk ht key ks v vs =
            { ht with table := ht.table.set (hashIndex ht key ks) c2 } := by
          simp [insertOk, insertInHashTable, hc2, getD_nil, hs]
        rw [hrun]
        intro c hcmem
        rcases List.mem_or_eq_of_mem_set hcmem with h | h
        · exact hwf c h
        · subst h
          exact chainWF_of_map_keyOf_eq _ _ (scanChain_map_keyOf true key ks vs _ _ hs) hchain
    | none =>
        have hnm := scanChain_none_no_match true key ks vs _ hs
        have hrun : insertOk ht key ks v vs =
            { ht with
              table := ht.table.set (hashIndex ht key ks)
                (e1 :: rest ++ [newEntry key ks v vs])
              size := ht.size + 1 } := by
          simp [insertOk, insertInHashTable, hc2, getD_nil, hs]
        rw [hrun]
        intro c hcmem
        rcases List.mem_or_eq_of_mem_set hcmem with h | h
        · exact hwf c h
        · subst h
          have hlen : ∀ e ∈ (e1 :: rest) ++ [newEntry key ks v vs],
              e.key.length = e.key_size := by
            intro e he
            rcases List.mem_append.mp he with h | h
            · exact hchain.1 e h
            · have he2 := List.mem_singleton.mp h
              subst he2
              show (key.take ks).length = ks
              rw [List.length_take]
              exact Nat.min_eq_left hks
          have hpw : ((e1 :: rest) ++ [newEntry key ks v vs]).Pairwise
              (fun a b => ¬ (a.key_size = b.key_size ∧ a.key = b.key)) := by
            rw [List.pairwise_append]
            refine ⟨hchain.2, by simp, ?_⟩
            intro a ha b hb
            have hb2 := List.mem_singleton.mp hb
            subst hb2
            intro hab
            have hkey : a.key = key.take ks := hab.2
            have hmatch : memcmpEq a.key key ks = true := by
              unfold memcmpEq
              rw [hkey, List.take_take]
              simp
            rw [hnm a ha] at hmatch
            cases hmatch
          exact ⟨hlen, hpw⟩

/-- A well-formed table satisfies the Boolean no-duplicate-keys check. -/
theorem tableNoDupB_of_wf (ht : HashTable) (h : TableWF ht) : tableNoDupB ht = true := by
  unfold tableNoDupB
  rw [List.all_eq_true]
  intro c hc
  have hpw := (h c hc).2
  clear hc
  induction hpw with
  | nil => rfl
  | cons hhead _htail ih =>
      simp only [List.map_cons, noDupKeysB, Bool.and_eq_true]
      refine ⟨?_, ih⟩
      rw [List.all_eq_true]
      intro q hq
      rcases List.mem_map.mp hq with ⟨e2, he2, rfl⟩
      rw [bne_iff_ne]
      intro hqe
      exact hhead e2 he2 ⟨(congrArg Prod.snd hqe).symm, (congrArg Prod.fst hqe).symm⟩

/-- Bucket array of a successfully created table: one empty chain per loop
iteration. -/
theorem createHashTable_some_table (n : Int) (a1 a2 : Bool) (ht : HashTable)
    (h : createHashTable n a1 a2 = some ht) :
    ht.table = List.replicate n.toNat [] := by
  cases a1 with
  | false => exact absurd h (by simp [createHashTable])
  | true =>
      cases a2 with
      | false => exact absurd h (by simp [createHashTable])
      | true =>
          simp only [createHashTable] at h
          have h2 := Option.some.inj h
          subst h2
          rfl

/-- C8: after any sequence of insert calls (with every allocation succeeding
and each call's `keysize` within its key buffer) on a table built by
`createHashTable`, no bucket chain holds two entries with equal key bytes and
equal `key_size`: whenever an entry with the exact probe key is present,
insert's memcmp over `keysize` bytes detects it and returns without
appending, so an exact duplicate is never created. -/
theorem insert_sequence_unique_keys (n : Int) (a1 a2 : Bool) (ht0 : HashTable)
    (hcreate : createHashTable n a1 a2 = some ht0) (ops : List InsOp)
    (hops : ∀ op ∈ ops, op.keysize ≤ op.key.length) :
    tableNoDupB (runInserts ht0 ops) = true := by
  have h0 : TableWF ht0 := by
    intro c hcmem
    rw [createHashTable_some_table n a1 a2 ht0 hcreate] at hcmem
    rw [List.eq_of_mem_replicate hcmem]
    exact ⟨fun e he => absurd he (List.not_mem_nil e), List.Pairwise.nil⟩
  have main : ∀ (ops2 : List InsOp) (ht : HashTable), TableWF ht →
      (∀ op ∈ ops2, op.keysize ≤ op.key.length) →
      TableWF (runInserts ht ops2) := by
    intro ops2
    induction ops2 with
    | nil => intro ht h _; exact h
    | cons op rest ih =>
        intro ht h hops2
        exact ih _ (insertOk_wf ht op.key op.keysize op.value op.valuesize
            (hops2 op (List.mem_cons_self op rest)) h)
          (fun op2 h2 => hops2 op2 (List.mem_cons_of_mem op h2))
  exact tableNoDupB_of_wf _ (main ops ht0 h0 hops)

/-- Witness for `insert_sequence_unique_keys`: capacity 1, three inserts
(two distinct keys plus a repeat) all colliding into one chain. -/
theorem insert_sequence_unique_keys_witness :
    tableNoDupB (runInserts ⟨1, 0, [[]]⟩
      [⟨[1], 1, [10], 1⟩, ⟨[2], 1, [20], 1⟩, ⟨[1], 1, [30], 1⟩]) = true :=
  insert_sequence_unique_keys 1 true true ⟨1, 0, [[]]⟩ (by decide)
    [⟨[1], 1, [10], 1⟩, ⟨[2], 1, [20], 1⟩, ⟨[1], 1, [30], 1⟩] (by decide)

end Hashtable
